import Mathlib

/-
Verification of the document re-annotation matcher in
src/ai_pi/document_handling/document_output.py.

Strings are modelled as lists of characters.  The Python string operations
used by the source (`str.strip`, `str.split`, `' '.join`, substring test,
`str.index`, slicing) are translated below, followed by a model of the
fuzzywuzzy `token_set_ratio` scorer (valid for inputs shorter than 200
characters, below difflib's autojunk threshold), and then the matcher
itself (`output_commented_document` and `enable_track_changes`).
-/

namespace AIPI

/-- Strings are lists of characters. -/
abbrev Str := List Char

/-- Characters treated as whitespace by Python's `str.split()` / `str.strip()`
(ASCII whitespace; the inputs of interest are ASCII). -/
def isPySpace (c : Char) : Bool :=
  c = ' ' || c = '\t' || c = '\n' || c = '\r' || c = '\x0B' || c = '\x0C'

/-- Python `s.strip()`: drop leading and trailing whitespace. -/
def pyStrip (s : Str) : Str :=
  ((s.dropWhile isPySpace).reverse.dropWhile isPySpace).reverse

/-- Worker for `pySplit`; `acc` holds the current word, reversed. -/
def pySplitAux : Str → Str → List Str
  | [], acc => if acc = [] then [] else [acc.reverse]
  | c :: t, acc =>
      if isPySpace c then
        if acc = [] then pySplitAux t [] else acc.reverse :: pySplitAux t []
      else pySplitAux t (c :: acc)

/-- Python `s.split()` with no arguments: split on whitespace runs,
discarding empty fragments. -/
def pySplit (s : Str) : List Str := pySplitAux s []

/-- Python `' '.join(words)`. -/
def joinSpace : List Str → Str
  | [] => []
  | [w] => w
  | w :: x :: xs => w ++ ' ' :: joinSpace (x :: xs)

/-- The whitespace normalization used throughout the matcher:
`' '.join(s.split())` (lines 137 and 145 of document_output.py). -/
def normalize (s : Str) : Str := joinSpace (pySplit s)

/-- `n` occurs in `h` at offset `i` (Python `h[i:].startswith(n)`). -/
def isSubAt (n h : Str) (i : Nat) : Bool := n.isPrefixOf (h.drop i)

/-- Python `h.index(n)` combined with the `n in h` test: the least offset at
which `n` occurs in `h`, or `none`.  Note `findSub [] h = some 0`, matching
Python where the empty string is a substring of every string. -/
def findSub (n : Str) : Str → Option Nat
  | [] => if n.isPrefixOf [] then some 0 else none
  | c :: t =>
      if n.isPrefixOf (c :: t) then some 0
      else (findSub n t).map (fun i => i + 1)

/-! ### fuzzywuzzy `token_set_ratio` (with difflib's `SequenceMatcher`) -/

/-- Python regex word character `\w` over ASCII: letters, digits, underscore. -/
def isWordChar (c : Char) : Bool := c.isAlphanum || c = '_'

/-- fuzzywuzzy `utils.full_process`: replace non-word characters by spaces,
lowercase, strip. -/
def fullProcess (s : Str) : Str :=
  pyStrip (s.map (fun c => if isWordChar c then c.toLower else ' '))

/-- Length of the longest common prefix of two strings. -/
def commonLen : Str → Str → Nat
  | a :: as, b :: bs => if a = b then commonLen as bs + 1 else 0
  | _, _ => 0

/-- difflib `SequenceMatcher.find_longest_match` with no junk (valid below the
autojunk threshold): the longest common substring, ties broken by the smallest
offset in `a`, then the smallest offset in `b`; `(0, 0, 0)` when there is
none. -/
def flm (a b : Str) : Nat × Nat × Nat :=
  (List.range a.length).foldl
    (fun best i =>
      (List.range b.length).foldl
        (fun best j =>
          let k := commonLen (a.drop i) (b.drop j)
          if best.2.2 < k then (i, j, k) else best)
        best)
    (0, 0, 0)

/-- Total size of difflib's matching blocks, with explicit recursion fuel
(`a.length + b.length` always suffices, since each recursive level removes a
nonempty block). -/
def matchSizeFuel : Nat → Str → Str → Nat
  | 0, _, _ => 0
  | fuel + 1, a, b =>
      let t := flm a b
      if t.2.2 = 0 then 0
      else
        matchSizeFuel fuel (a.take t.1) (b.take t.2.1) + t.2.2 +
          matchSizeFuel fuel (a.drop (t.1 + t.2.2)) (b.drop (t.2.1 + t.2.2))

/-- Total size of difflib's matching blocks between `a` and `b`. -/
def matchSize (a b : Str) : Nat := matchSizeFuel (a.length + b.length) a b

/-- Python `int(round(num/den))` for a nonnegative rational: round half to
even. -/
def pyRound (num den : Nat) : Nat :=
  let q := num / den
  let r := num % den
  if 2 * r < den then q
  else if den < 2 * r then q + 1
  else if q % 2 = 0 then q else q + 1

/-- fuzzywuzzy `fuzz.ratio`: `int(round(100 * 2M / T))` where `M` is the total
matching-block size and `T` the total length. -/
def fuzzScore (a b : Str) : Nat :=
  if a.length + b.length = 0 then 100
  else pyRound (200 * matchSize a b) (a.length + b.length)

/-- Lexicographic order on strings by code point (Python string `<=`). -/
def strLeChars : Str → Str → Bool
  | [], _ => true
  | _ :: _, [] => false
  | a :: as, b :: bs => if a = b then strLeChars as bs else decide (a.toNat < b.toNat)

/-- Insert into a lexicographically sorted list of strings. -/
def insertSorted (w : Str) : List Str → List Str
  | [] => [w]
  | x :: xs => if strLeChars w x then w :: x :: xs else x :: insertSorted w xs

/-- Insertion sort over strings (Python `sorted` on a set of tokens). -/
def sortStrs : List Str → List Str
  | [] => []
  | x :: xs => insertSorted x (sortStrs xs)

/-- Python `set(full_process(s).split())`, as a duplicate-free token list. -/
def tokenSet (s : Str) : List Str := (pySplit (fullProcess s)).dedup

/-- fuzzywuzzy `fuzz.token_set_ratio` (default `full_process`, `partial`
off): score the sorted token intersection against each side's sorted token
union and take the best of the three pairwise `fuzz.ratio` scores; `0` when
either processed string is empty (`validate_string`). -/
def tokenSetScore (s1 s2 : Str) : Nat :=
  if fullProcess s1 = [] then 0
  else if fullProcess s2 = [] then 0
  else
    let t1 := tokenSet s1
    let t2 := tokenSet s2
    let sect := joinSpace (sortStrs (t1.filter (fun w => decide (w ∈ t2))))
    let c12 := pyStrip (sect ++ ' ' :: joinSpace (sortStrs (t1.filter (fun w => decide (w ∉ t2)))))
    let c21 := pyStrip (sect ++ ' ' :: joinSpace (sortStrs (t2.filter (fun w => decide (w ∉ t1)))))
    let sectS := pyStrip sect
    max (max (fuzzScore sectS c12) (fuzzScore sectS c21)) (fuzzScore c12 c21)

/-! ### The matcher (`output_commented_document`, lines 90-271) -/

/-- One run of the rewritten output paragraph: plain text, a tracked
deletion carrying an attached comment, a tracked insertion, or plain matched
text with an attached comment (the comment-only branch). -/
inductive DocRun where
  | plain (t : Str)
  | deleted (t : Str) (comment : Str)
  | inserted (t : Str)
  | commented (t : Str) (comment : Str)
deriving DecidableEq

/-- The confidence suffix appended to a revision comment (line 226). -/
def confSuffix (conf : Nat) : Str :=
  " (Match confidence: ".data ++ (Nat.repr conf).data ++ "%)".data

/-- Lines 190-247: rewrite the paragraph text around the matched span.  The
text before the match and after the match become plain runs (omitted when
empty); a truthy, non-whitespace revision yields a deletion run (with the
comment plus confidence suffix) followed by an insertion run; otherwise the
matched text is emitted as a single run with the bare comment attached. -/
def buildRuns (text : Str) (loc : Nat) (m c rev : Str) (conf : Nat) : List DocRun :=
  let before := text.take loc
  let after := text.drop (loc + m.length)
  (if before = [] then [] else [DocRun.plain before]) ++
    (if rev ≠ [] ∧ pyStrip rev ≠ [] then
        [DocRun.deleted m (c ++ confSuffix conf), DocRun.inserted rev]
      else [DocRun.commented m c]) ++
    (if after = [] then [] else [DocRun.plain after])

/-- Lines 162-172: score every window `text[i:i+ws]` for `i < n` and return
the index of the first best-scoring window (Python `max` keeps the first
maximum). -/
def bestWindow (nm text : Str) (ws n : Nat) : Nat :=
  (((List.range n).map
      (fun i => (i, tokenSetScore nm ((text.drop i).take ws)))).foldl
    (fun best p => if best.2 < p.2 then p else best) (0, 0)).1

/-- Lines 147-188: locate one match string against the current paragraph.
Returns `(confidence, offset, text used for slicing, match string recorded)`.
The exact pass uses the normalized paragraph text and the normalized needle;
the fuzzy pass keeps the current `text` variable and the raw needle, requires
`token_set_ratio` of needle versus normalized paragraph to reach the
threshold, and fails (Python `ValueError` caught by `continue`) when the
window list is empty. -/
def locateMatch (th : Nat) (text norm m : Str) : Option (Nat × Nat × Str × Str) :=
  let nm := normalize m
  match findSub nm norm with
  | some loc => some (100, loc, norm, nm)
  | none =>
      let score := tokenSetScore nm norm
      if th ≤ score then
        let ws := 2 * nm.length
        let n := text.length + 1 - ws
        if n = 0 then none
        else some (score, bestWindow nm text ws n, text, m)
      else none

/-- A review item triple `(match_string, comment, revision)`. -/
abbrev Item := Str × Str × Str

/-- One iteration of the inner loop (lines 140-260) over the state
`(text, rewritten content, processed match strings)`.  Items whose raw match
string is already in the processed set are skipped; on success the paragraph
content is replaced (Python `paragraph.clear()`), the `text` variable is
updated (the exact branch sets it to the normalized text), and the recorded
match string (normalized for exact matches, raw for fuzzy ones) is added to
the processed set. -/
def stepItem (th : Nat) (norm : Str) (st : Str × Option (List DocRun) × List Str)
    (item : Item) : Str × Option (List DocRun) × List Str :=
  if item.1 ∈ st.2.2 then st
  else
    match locateMatch th st.1 norm item.1 with
    | none => st
    | some (conf, loc, t, mm) =>
        (t, some (buildRuns t loc mm item.2.1 item.2.2 conf), mm :: st.2.2)

/-- Lines 135-260: process one paragraph.  `text` and its normalization are
computed once from the paragraph before the item loop. -/
def processParagraph (th : Nat) (items : List Item) (processed : List Str)
    (pText : Str) : Option (List DocRun) × List Str :=
  let text := pyStrip pText
  let norm := normalize text
  let st := items.foldl (stepItem th norm) (text, none, processed)
  (st.2.1, st.2.2)

/-- Iterate the paragraphs of the document in order, threading the processed
set, and record each paragraph's original text with its rewritten content
(`none` = untouched). -/
def runParagraphs (th : Nat) (items : List Item) :
    List Str → List Str → List (Str × Option (List DocRun)) × List Str
  | [], processed => ([], processed)
  | p :: ps, processed =>
      let r := processParagraph th items processed p
      let rest := runParagraphs th items ps r.2
      ((p, r.1) :: rest.1, rest.2)

/-- Lines 13-20: `enable_track_changes` unconditionally appends a
`w:trackRevisions` element to the document settings. -/
def enable_track_changes (settings : List Str) : List Str :=
  settings ++ ["w:trackRevisions".data]

/-- The observable outcome of one run: document settings, per-paragraph
content, the processed set, and the unmatched report (lines 262-267). -/
structure RunResult where
  settings : List Str
  paragraphs : List (Str × Option (List DocRun))
  processed : List Str
  unmatched : List Str
deriving DecidableEq

/-- Python `zip` over three lists: truncates to the shortest. -/
def zip3 : List Str → List Str → List Str → List Item
  | [], _, _ => []
  | _ :: _, [], _ => []
  | _ :: _, _ :: _, [] => []
  | a :: as, b :: bs, c :: cs => (a, b, c) :: zip3 as bs cs

/-- The run given the already-zipped `all_matches` list (lines 110-267):
enable track changes once, scan the paragraphs, then report as unmatched the
distinct match strings not in the processed set. -/
def runWithMatches (th : Nat) (initSettings : List Str) (allMatches : List Item)
    (paraTexts : List Str) : RunResult :=
  let pr := runParagraphs th allMatches paraTexts []
  { settings := enable_track_changes initSettings
    paragraphs := pr.1
    processed := pr.2
    unmatched := (allMatches.map (fun x => x.1)).dedup.filter
      (fun x => decide (x ∉ pr.2)) }

/-- `output_commented_document` on the flattened match/comment/revision
lists: `all_matches = list(zip(all_match_strings, all_comments,
all_revisions))` (line 129), then the paragraph scan. -/
def output_commented_document (th : Nat) (initSettings : List Str)
    (matchStrings comments revisions : List Str) (paraTexts : List Str) : RunResult :=
  runWithMatches th initSettings (zip3 matchStrings comments revisions) paraTexts

/-- One entry of `document_review_items['section_reviews']`: the per-section
`match_strings`, `comments` and `revisions` lists. -/
structure SectionReview where
  match_strings : List Str
  comments : List Str
  revisions : List Str
deriving DecidableEq

/-- Lines 114-123: flatten the per-section lists by concatenation. -/
def flattenSections (secs : List SectionReview) : List Str × List Str × List Str :=
  ((secs.map (fun s => s.match_strings)).flatten,
   (secs.map (fun s => s.comments)).flatten,
   (secs.map (fun s => s.revisions)).flatten)

/-- `output_commented_document` from the section-review records. -/
def output_commented_document_sections (th : Nat) (initSettings : List Str)
    (secs : List SectionReview) (paraTexts : List Str) : RunResult :=
  output_commented_document th initSettings (flattenSections secs).1
    (flattenSections secs).2.1 (flattenSections secs).2.2 paraTexts

/-- Length of the shortest of the three flattened per-section lists: the
number of aligned triples `zip` retains. -/
def minLen3 (secs : List SectionReview) : Nat :=
  min (flattenSections secs).1.length
    (min (flattenSections secs).2.1.length (flattenSections secs).2.2.length)

/-! ### Supporting lemmas -/

/-- The empty needle occurs at offset 0 in every haystack. -/
theorem findSub_nil_needle (h : Str) : findSub [] h = some 0 := by
  cases h <;> rfl

/-- Unfolding equation of `findSub` on the empty haystack. -/
theorem findSub_nil (n : Str) :
    findSub n [] = if n.isPrefixOf [] then some 0 else none := rfl

/-- Unfolding equation of `findSub` on a cons haystack. -/
theorem findSub_cons (n : Str) (c : Char) (t : Str) :
    findSub n (c :: t) =
      if n.isPrefixOf (c :: t) then some 0
      else (findSub n t).map (fun i => i + 1) := rfl

/-- `findSub` only returns genuine occurrences. -/
theorem findSub_isSubAt (n : Str) :
    ∀ (h : Str) (i : Nat), findSub n h = some i → isSubAt n h i = true := by
  intro h
  induction h with
  | nil =>
      intro i hi
      rw [findSub_nil] at hi
      by_cases hp : n.isPrefixOf ([] : Str) = true
      · rw [if_pos hp] at hi
        simp only [Option.some.injEq] at hi
        subst hi
        simpa [isSubAt] using hp
      · rw [if_neg hp] at hi
        exact absurd hi (by simp)
  | cons c t ih =>
      intro i hi
      rw [findSub_cons] at hi
      by_cases hp : n.isPrefixOf (c :: t) = true
      · rw [if_pos hp] at hi
        simp only [Option.some.injEq] at hi
        subst hi
        simpa [isSubAt] using hp
      · rw [if_neg hp] at hi
        cases hfs : findSub n t with
        | none => rw [hfs] at hi; simp at hi
        | some j =>
            rw [hfs] at hi
            simp only [Option.map_some', Option.some.injEq] at hi
            subst hi
            simpa [isSubAt, List.drop_succ_cons] using ih j hfs

/-- `findSub` returns the least occurrence: every earlier offset fails. -/
theorem findSub_min (n : Str) :
    ∀ (h : Str) (i : Nat), findSub n h = some i →
      ∀ j, j < i → isSubAt n h j = false := by
  intro h
  induction h with
  | nil =>
      intro i hi j hj
      rw [findSub_nil] at hi
      by_cases hp : n.isPrefixOf ([] : Str) = true
      · rw [if_pos hp] at hi
        simp only [Option.some.injEq] at hi
        omega
      · rw [if_neg hp] at hi
        exact absurd hi (by simp)
  | cons c t ih =>
      intro i hi j hj
      rw [findSub_cons] at hi
      by_cases hp : n.isPrefixOf (c :: t) = true
      · rw [if_pos hp] at hi
        simp only [Option.some.injEq] at hi
        omega
      · rw [if_neg hp] at hi
        cases hfs : findSub n t with
        | none => rw [hfs] at hi; simp at hi
        | some k =>
            rw [hfs] at hi
            simp only [Option.map_some', Option.some.injEq] at hi
            subst hi
            cases j with
            | zero =>
                simpa [isSubAt] using Bool.eq_false_iff.mpr hp
            | succ j' =>
                simpa [isSubAt, List.drop_succ_cons] using ih k hfs j' (by omega)

/-- `findSub` finds something whenever an occurrence exists. -/
theorem findSub_complete (n : Str) :
    ∀ (h : Str) (i : Nat), isSubAt n h i = true → findSub n h ≠ none := by
  intro h
  induction h with
  | nil =>
      intro i hi
      have hp : n.isPrefixOf ([] : Str) = true := by
        simpa [isSubAt] using hi
      simp [findSub, hp]
  | cons c t ih =>
      intro i hi
      unfold findSub
      by_cases hp : n.isPrefixOf (c :: t) = true
      · simp [hp]
      · simp only [hp, if_false]
        cases i with
        | zero => exact absurd (by simpa [isSubAt] using hi) hp
        | succ j =>
            have hne := ih j (by simpa [isSubAt, List.drop_succ_cons] using hi)
            cases hfs : findSub n t with
            | none => exact absurd hfs hne
            | some k => simp [hfs]

/-- Every fragment produced by `pySplitAux` (from a whitespace-free
accumulator) is nonempty and free of whitespace characters. -/
theorem pySplitAux_words :
    ∀ (s acc : Str), (∀ x ∈ acc, isPySpace x = false) →
      ∀ w ∈ pySplitAux s acc, w ≠ [] ∧ ∀ x ∈ w, isPySpace x = false := by
  intro s
  induction s with
  | nil =>
      intro acc hacc w hw
      unfold pySplitAux at hw
      by_cases ha : acc = []
      · simp [ha] at hw
      · simp only [ha, if_false, List.mem_singleton] at hw
        subst hw
        refine ⟨by simpa [List.reverse_eq_nil_iff] using ha, ?_⟩
        intro x hx
        exact hacc x (List.mem_reverse.mp hx)
  | cons c t ih =>
      intro acc hacc w hw
      unfold pySplitAux at hw
      by_cases hc : isPySpace c = true
      · simp only [hc, if_true] at hw
        by_cases ha : acc = []
        · simp only [ha, if_true] at hw
          exact ih [] (by simp) w hw
        · simp only [ha, if_false, List.mem_cons] at hw
          rcases hw with rfl | hw
          · refine ⟨by simpa [List.reverse_eq_nil_iff] using ha, ?_⟩
            intro x hx
            exact hacc x (List.mem_reverse.mp hx)
          · exact ih [] (by simp) w hw
      · simp only [hc, if_false] at hw
        refine ih (c :: acc) ?_ w hw
        intro x hx
        rcases List.mem_cons.mp hx with rfl | hx
        · exact Bool.eq_false_iff.mpr hc
        · exact hacc x hx

/-- Unfolding equation of `pySplitAux` on the empty string. -/
theorem pySplitAux_nil (acc : Str) :
    pySplitAux [] acc = if acc = [] then [] else [acc.reverse] := rfl

/-- Unfolding equation of `pySplitAux` on a cons string. -/
theorem pySplitAux_cons (c : Char) (t acc : Str) :
    pySplitAux (c :: t) acc =
      if isPySpace c then
        if acc = [] then pySplitAux t [] else acc.reverse :: pySplitAux t []
      else pySplitAux t (c :: acc) := rfl

/-- Feeding a whitespace-free word into `pySplitAux` accumulates it. -/
theorem pySplitAux_append_word :
    ∀ (w s acc : Str), (∀ x ∈ w, isPySpace x = false) →
      pySplitAux (w ++ s) acc = pySplitAux s (w.reverse ++ acc) := by
  intro w
  induction w with
  | nil => intro s acc _; simp
  | cons c cs ih =>
      intro s acc hw
      have hc : isPySpace c = false := hw c (by simp)
      have hcs : ∀ x ∈ cs, isPySpace x = false := fun x hx => hw x (by simp [hx])
      show pySplitAux (c :: (cs ++ s)) acc = pySplitAux s ((c :: cs).reverse ++ acc)
      rw [pySplitAux_cons, if_neg (by simp [hc]), ih s (c :: acc) hcs,
        List.reverse_cons, List.append_assoc]
      rfl

/-- Splitting the space-join of nonempty whitespace-free words recovers the
words. -/
theorem pySplit_joinSpace :
    ∀ L : List Str, (∀ w ∈ L, w ≠ [] ∧ ∀ x ∈ w, isPySpace x = false) →
      pySplit (joinSpace L) = L := by
  intro L
  induction L with
  | nil => intro _; rfl
  | cons w ws ih =>
      intro h
      obtain ⟨hwne, hwsp⟩ := h w (by simp)
      have hrev : ¬ w.reverse = [] := by
        simpa [List.reverse_eq_nil_iff] using hwne
      cases ws with
      | nil =>
          show pySplitAux (joinSpace [w]) [] = [w]
          have h1 : joinSpace [w] = w ++ [] := by simp [joinSpace]
          rw [h1, pySplitAux_append_word w [] [] hwsp, List.append_nil,
            pySplitAux_nil, if_neg hrev, List.reverse_reverse]
      | cons x xs =>
          show pySplitAux (joinSpace (w :: x :: xs)) [] = w :: x :: xs
          have hj : joinSpace (w :: x :: xs) = w ++ ' ' :: joinSpace (x :: xs) := rfl
          rw [hj, pySplitAux_append_word w (' ' :: joinSpace (x :: xs)) [] hwsp,
            List.append_nil, pySplitAux_cons, if_pos (show isPySpace ' ' = true by decide),
            if_neg hrev, List.reverse_reverse]
          have ihh := ih (fun v hv => h v (by simp [hv]))
          unfold pySplit at ihh
          rw [ihh]

/-- `zip3` truncates to the shortest list, so taking the common prefix of the
three inputs changes nothing. -/
theorem zip3_take :
    ∀ as bs cs : List Str,
      zip3 as bs cs =
        zip3 (as.take (min as.length (min bs.length cs.length)))
          (bs.take (min as.length (min bs.length cs.length)))
          (cs.take (min as.length (min bs.length cs.length))) := by
  intro as
  induction as with
  | nil => intro bs cs; simp [zip3]
  | cons a as ih =>
      intro bs cs
      cases bs with
      | nil => simp [zip3]
      | cons b bs =>
          cases cs with
          | nil => simp [zip3]
          | cons c cs =>
              show (a, b, c) :: zip3 as bs cs = _
              simp only [List.length_cons, Nat.succ_min_succ, List.take_succ_cons]
              show _ = (a, b, c) :: zip3 (as.take _) (bs.take _) (cs.take _)
              rw [ih bs cs]

/-- The match strings of the zipped triples are the common-length prefix of
the match-string list. -/
theorem zip3_map_fst :
    ∀ as bs cs : List Str,
      (zip3 as bs cs).map (fun x => x.1) =
        as.take (min as.length (min bs.length cs.length)) := by
  intro as
  induction as with
  | nil => intro bs cs; simp [zip3]
  | cons a as ih =>
      intro bs cs
      cases bs with
      | nil => simp [zip3]
      | cons b bs =>
          cases cs with
          | nil => simp [zip3]
          | cons c cs =>
              show (a, b, c).1 :: (zip3 as bs cs).map (fun x => x.1) = _
              simp only [List.length_cons, Nat.succ_min_succ, List.take_succ_cons]
              rw [ih bs cs]

/-- The string recorded into the processed set by a successful
`locateMatch` is either the normalized needle (exact pass) or the raw needle
(fuzzy pass). -/
theorem locateMatch_key (th : Nat) (text norm m : Str) (conf loc : Nat) (t mm : Str)
    (h : locateMatch th text norm m = some (conf, loc, t, mm)) :
    mm = normalize m ∨ mm = m := by
  simp only [locateMatch] at h
  split at h
  · simp only [Option.some.injEq, Prod.mk.injEq] at h
    exact Or.inl h.2.2.2.symm
  · split at h
    · split at h
      · simp at h
      · simp only [Option.some.injEq, Prod.mk.injEq] at h
        exact Or.inr h.2.2.2.symm
    · simp at h

/-- A needle that normalizes to the empty string always yields an exact
candidate at offset 0 with confidence 100. -/
theorem locateMatch_empty_needle (th : Nat) (text norm m : Str)
    (h : normalize m = []) :
    locateMatch th text norm m = some (100, 0, norm, []) := by
  simp only [locateMatch, h, findSub_nil_needle]

/-- Unfolding equation of `runParagraphs` on the empty paragraph list. -/
theorem runParagraphs_nil (th : Nat) (items : List Item) (processed : List Str) :
    runParagraphs th items [] processed = ([], processed) := rfl

/-- Unfolding equation of `runParagraphs` on a cons paragraph list. -/
theorem runParagraphs_cons (th : Nat) (items : List Item) (p : Str)
    (ps processed : List Str) :
    runParagraphs th items (p :: ps) processed =
      ((p, (processParagraph th items processed p).1) ::
        (runParagraphs th items ps (processParagraph th items processed p).2).1,
       (runParagraphs th items ps (processParagraph th items processed p).2).2) := rfl

/-- A single not-yet-processed item whose match string normalizes to the
empty string rewrites any paragraph and records the empty string. -/
theorem processParagraph_empty_needle (th : Nat) (m c r : Str)
    (processed : List Str) (p : Str)
    (h1 : normalize m = []) (hm : m ∉ processed) :
    processParagraph th [(m, c, r)] processed p =
      (some (buildRuns (normalize (pyStrip p)) 0 [] c r 100), [] :: processed) := by
  simp only [processParagraph, List.foldl_cons, List.foldl_nil, stepItem]
  rw [if_neg hm, locateMatch_empty_needle th (pyStrip p) (normalize (pyStrip p)) m h1]

/-- Over a whole run carrying one item whose non-empty match string
normalizes to the empty string, every paragraph is rewritten and the
processed set only ever holds the empty string. -/
theorem runParagraphs_empty_needle (th : Nat) (m c r : Str)
    (h1 : normalize m = []) (h2 : m ≠ []) :
    ∀ (ps processed : List Str), (∀ q ∈ processed, q = ([] : Str)) →
      (∀ p ∈ (runParagraphs th [(m, c, r)] ps processed).1, p.2.isSome = true) ∧
      ∀ q ∈ (runParagraphs th [(m, c, r)] ps processed).2, q = ([] : Str) := by
  intro ps
  induction ps with
  | nil =>
      intro processed hp
      constructor
      · intro p hmem
        rw [runParagraphs_nil] at hmem
        simp at hmem
      · intro q hq
        rw [runParagraphs_nil] at hq
        exact hp q hq
  | cons p ps ih =>
      intro processed hp
      have hm : m ∉ processed := fun hmem => h2 (hp m hmem)
      have hstep := processParagraph_empty_needle th m c r processed p h1 hm
      rw [runParagraphs_cons, hstep]
      have hp2 : ∀ q ∈ ([] : Str) :: processed, q = ([] : Str) := by
        intro q hq
        rcases List.mem_cons.mp hq with rfl | hq
        · rfl
        · exact hp q hq
      obtain ⟨ihA, ihB⟩ := ih ([] :: processed) hp2
      constructor
      · intro pp hmem
        rcases List.mem_cons.mp hmem with rfl | hmem
        · rfl
        · exact ihA pp hmem
      · intro q hq
        exact ihB q hq

/-! ### Claims -/

/-- C8: the whitespace normalization used for matching (strip and collapse
internal whitespace runs to single spaces) is idempotent: normalizing twice
equals normalizing once. -/
theorem C8_normalize_idempotent (s : Str) :
    normalize (normalize s) = normalize s := by
  unfold normalize
  rw [pySplit_joinSpace (pySplit s) (pySplitAux_words s [] (by simp))]

/-- C4: when the normalized match string occurs in the normalized paragraph
text, the locator succeeds through the exact pass with confidence exactly
100, records the normalized text and normalized needle, reports the first
(least) occurrence offset, and the result is unchanged under any fuzzy
threshold and any window text (no fuzzy scoring influences it). -/
theorem C4_exact_match_precedence (th th' : Nat) (text text' norm m : Str) (i : Nat)
    (h : isSubAt (normalize m) norm i = true) :
    ∃ loc, locateMatch th text norm m = some (100, loc, norm, normalize m) ∧
      isSubAt (normalize m) norm loc = true ∧
      (∀ j, j < loc → isSubAt (normalize m) norm j = false) ∧
      locateMatch th' text' norm m = locateMatch th text norm m := by
  have hne := findSub_complete (normalize m) norm i h
  cases hfs : findSub (normalize m) norm with
  | none => exact absurd hfs hne
  | some loc =>
      refine ⟨loc, ?_, findSub_isSubAt _ _ _ hfs, findSub_min _ _ _ hfs, ?_⟩
      · simp only [locateMatch, hfs]
      · simp only [locateMatch, hfs]

/-- Witness for C4: an exact match located at the first occurrence. -/
theorem C4_exact_match_precedence_witness :
    ∃ loc, locateMatch 90 "zzz".data "A b c".data "b c".data =
        some (100, loc, "A b c".data, normalize "b c".data) ∧
      isSubAt (normalize "b c".data) "A b c".data loc = true ∧
      (∀ j, j < loc → isSubAt (normalize "b c".data) "A b c".data j = false) ∧
      locateMatch 17 "qq".data "A b c".data "b c".data =
        locateMatch 90 "zzz".data "A b c".data "b c".data :=
  C4_exact_match_precedence 90 17 "zzz".data "qq".data "A b c".data "b c".data 2
    (by decide)

/-- C3 counterexample: a whitespace-only match string normalizes to the
empty string, which is a substring of every paragraph, so the locator
returns an exact candidate (confidence 100 at offset 0) instead of `none`;
a run carrying such an item rewrites both paragraphs of the document (the
raw string never enters the processed set) and still lists the raw string
in the unmatched report. -/
theorem C3_counterexample :
    locateMatch 90 "hello".data "hello".data "  ".data =
      some (100, 0, "hello".data, []) ∧
    (output_commented_document 90 [] ["  ".data] ["note".data] [[]]
        ["hello".data, "world".data]).paragraphs =
      [("hello".data, some [DocRun.commented [] "note".data,
          DocRun.plain "hello".data]),
       ("world".data, some [DocRun.commented [] "note".data,
          DocRun.plain "world".data])] ∧
    "  ".data ∈ (output_commented_document 90 [] ["  ".data] ["note".data] [[]]
        ["hello".data, "world".data]).unmatched := by decide

/-- C3 amended: a match string that normalizes to the empty string always
produces an exact candidate at offset 0 with confidence 100 for every
paragraph; consequently a run carrying one such item with a non-empty
(whitespace-only) raw string rewrites every paragraph of the document and
still reports the raw string as unmatched, because the raw form differs
from the recorded normalized (empty) form. -/
theorem C3_amended_empty_needle (th : Nat) (text norm m c r : Str)
    (ps : List Str)
    (h1 : normalize m = []) (h2 : m ≠ []) :
    locateMatch th text norm m = some (100, 0, norm, []) ∧
    (∀ p ∈ (output_commented_document th [] [m] [c] [r] ps).paragraphs,
      p.2.isSome = true) ∧
    m ∈ (output_commented_document th [] [m] [c] [r] ps).unmatched := by
  have hrun := runParagraphs_empty_needle th m c r h1 h2 ps [] (by simp)
  refine ⟨locateMatch_empty_needle th text norm m h1, ?_, ?_⟩
  · intro p hp
    simp only [output_commented_document, runWithMatches] at hp
    exact hrun.1 p hp
  · simp only [output_commented_document, runWithMatches]
    apply List.mem_filter.mpr
    constructor
    · have hmem : m ∈ (([(m, c, r)] : List Item).map (fun x => x.1)).dedup := by
        simp
      exact hmem
    · have hnot : m ∉ (runParagraphs th [(m, c, r)] ps []).2 :=
        fun hmem => h2 (hrun.2 m hmem)
      simpa using hnot

/-- Witness for the amended C3: a two-space match string rewrites both
paragraphs and is still reported unmatched. -/
theorem C3_amended_empty_needle_witness :
    locateMatch 90 "hi there".data "hi there".data "  ".data =
      some (100, 0, "hi there".data, []) ∧
    (∀ p ∈ (output_commented_document 90 [] ["  ".data] ["note".data] [[]]
        ["hello".data, "world".data]).paragraphs, p.2.isSome = true) ∧
    "  ".data ∈ (output_commented_document 90 [] ["  ".data] ["note".data] [[]]
        ["hello".data, "world".data]).unmatched :=
  C3_amended_empty_needle 90 "hi there".data "hi there".data "  ".data
    "note".data [] ["hello".data, "world".data] (by decide) (by decide)

/-- C5: a matched span with a non-whitespace revision is rewritten into the
optional unchanged before-run, the deletion run carrying the matched text
with comment and confidence suffix, the insertion run carrying the revision,
and the optional unchanged after-run; a whitespace-only revision instead
yields a single commented run between the unchanged runs.  The spec's
round-trip on paragraph "A B C" with matched span "B" and revision "X" is
included. -/
theorem C5_revision_roundtrip (text : Str) (loc : Nat) (m c r rw : Str) (conf : Nat)
    (h1 : pyStrip r ≠ []) (h2 : pyStrip rw = []) :
    buildRuns text loc m c r conf =
      (if text.take loc = [] then [] else [DocRun.plain (text.take loc)]) ++
        [DocRun.deleted m (c ++ confSuffix conf), DocRun.inserted r] ++
        (if text.drop (loc + m.length) = [] then []
          else [DocRun.plain (text.drop (loc + m.length))]) ∧
    buildRuns text loc m c rw conf =
      (if text.take loc = [] then [] else [DocRun.plain (text.take loc)]) ++
        [DocRun.commented m c] ++
        (if text.drop (loc + m.length) = [] then []
          else [DocRun.plain (text.drop (loc + m.length))]) ∧
    processParagraph 90 [("B".data, c, "X".data)] [] "A B C".data =
      (some [DocRun.plain "A ".data,
        DocRun.deleted "B".data (c ++ confSuffix 100),
        DocRun.inserted "X".data, DocRun.plain " C".data], ["B".data]) := by
  refine ⟨?_, ?_, ?_⟩
  · have hr : r ≠ [] := fun he => h1 (by rw [he]; rfl)
    simp only [buildRuns, if_pos (And.intro hr h1)]
  · have hnc : ¬ (rw ≠ [] ∧ pyStrip rw ≠ []) := fun hc => hc.2 h2
    simp only [buildRuns, if_neg hnc]
  · rfl

/-- Witness for C5 at a concrete paragraph. -/
theorem C5_revision_roundtrip_witness :
    buildRuns "A B C".data 2 "B".data "note".data "X".data 100 =
      (if ("A B C".data.take 2 : Str) = [] then []
        else [DocRun.plain ("A B C".data.take 2)]) ++
        [DocRun.deleted "B".data ("note".data ++ confSuffix 100),
          DocRun.inserted "X".data] ++
        (if ("A B C".data.drop (2 + "B".data.length) : Str) = [] then []
          else [DocRun.plain ("A B C".data.drop (2 + "B".data.length))]) :=
  (C5_revision_roundtrip "A B C".data 2 "B".data "note".data "X".data "  ".data 100
    (by decide) (by decide)).1

/-- C2 counterexample: items "x" and "y" both exact-match the single
paragraph "x y"; after the run the paragraph holds only the runs built for
"y", although "x" was applied (it is in the processed set) with a non-empty
revision — its deletion/insertion runs were erased by the later
application. -/
theorem C2_counterexample :
    (output_commented_document 90 [] ["x".data, "y".data]
        ["c1".data, "c2".data] ["r1".data, "r2".data] ["x y".data]).paragraphs =
      [("x y".data, some [DocRun.plain "x ".data,
        DocRun.deleted "y".data ("c2".data ++ confSuffix 100),
        DocRun.inserted "r2".data])] ∧
    "x".data ∈ (output_commented_document 90 [] ["x".data, "y".data]
        ["c1".data, "c2".data] ["r1".data, "r2".data] ["x y".data]).processed := by
  decide

/-- C2 amended: each successful application replaces the paragraph content
wholesale — whatever run list an earlier item produced (`rw`) is discarded
and the content becomes exactly the run list built for the current item,
which for a non-whitespace revision contains the deletion run immediately
followed by the insertion run.  Hence only the last applied item's runs
survive in a paragraph. -/
theorem C2_amended_last_application_wins (th : Nat) (norm text : Str)
    (rw : Option (List DocRun)) (processed : List Str) (m c r : Str)
    (conf loc : Nat) (t mm : Str)
    (h1 : m ∉ processed)
    (h2 : locateMatch th text norm m = some (conf, loc, t, mm))
    (h3 : pyStrip r ≠ []) :
    stepItem th norm (text, rw, processed) (m, c, r) =
      (t, some (buildRuns t loc mm c r conf), mm :: processed) ∧
    buildRuns t loc mm c r conf =
      (if t.take loc = [] then [] else [DocRun.plain (t.take loc)]) ++
        [DocRun.deleted mm (c ++ confSuffix conf), DocRun.inserted r] ++
        (if t.drop (loc + mm.length) = [] then []
          else [DocRun.plain (t.drop (loc + mm.length))]) := by
  constructor
  · simp only [stepItem]
    rw [if_neg h1, h2]
  · have hr : r ≠ [] := fun he => h3 (by rw [he]; rfl)
    simp only [buildRuns, if_pos (And.intro hr h3)]

/-- Witness for the amended C2: the prior rewritten content is overwritten. -/
theorem C2_amended_last_application_wins_witness :
    stepItem 90 "x y".data ("x y".data, some [DocRun.plain "OLD".data], [])
        ("y".data, "c2".data, "r2".data) =
      ("x y".data, some (buildRuns "x y".data 2 "y".data "c2".data "r2".data 100),
        "y".data :: []) ∧
    buildRuns "x y".data 2 "y".data "c2".data "r2".data 100 =
      (if ("x y".data.take 2 : Str) = [] then []
        else [DocRun.plain ("x y".data.take 2)]) ++
        [DocRun.deleted "y".data ("c2".data ++ confSuffix 100),
          DocRun.inserted "r2".data] ++
        (if ("x y".data.drop (2 + "y".data.length) : Str) = [] then []
          else [DocRun.plain ("x y".data.drop (2 + "y".data.length))]) :=
  C2_amended_last_application_wins 90 "x y".data "x y".data
    (some [DocRun.plain "OLD".data]) [] "y".data "c2".data "r2".data 100 2
    "x y".data "y".data (by decide) (by decide) (by decide)

/-- C6 counterexample: the needle "b a" has normalized length 3 (below the
claimed minimum of 8), is not an exact substring of the paragraph "a b cc",
yet the locator returns a fuzzy candidate for it. -/
theorem C6_counterexample :
    (normalize "b a".data).length < 8 ∧
    normalize "b a".data ≠ [] ∧
    findSub (normalize "b a".data) (normalize "a b cc".data) = none ∧
    locateMatch 90 (pyStrip "a b cc".data) (normalize "a b cc".data) "b a".data =
      some (100, 0, "a b cc".data, "b a".data) := by decide

/-- C6 amended: the fuzzy pass runs whenever the exact pass fails, with no
minimum needle length: any needle whose token-set score against the
normalized paragraph reaches the threshold is matched at the best window,
provided the window list is nonempty. -/
theorem C6_amended_no_min_length (th : Nat) (text norm m : Str)
    (h1 : findSub (normalize m) norm = none)
    (h2 : th ≤ tokenSetScore (normalize m) norm)
    (h3 : text.length + 1 - 2 * (normalize m).length ≠ 0) :
    locateMatch th text norm m =
      some (tokenSetScore (normalize m) norm,
        bestWindow (normalize m) text (2 * (normalize m).length)
          (text.length + 1 - 2 * (normalize m).length),
        text, m) := by
  simp only [locateMatch, h1]
  rw [if_pos h2, if_neg h3]

/-- Witness for the amended C6: a three-character needle is fuzzily
matched. -/
theorem C6_amended_no_min_length_witness :
    locateMatch 90 "a b cc".data "a b cc".data "b a".data =
      some (tokenSetScore (normalize "b a".data) "a b cc".data,
        bestWindow (normalize "b a".data) "a b cc".data
          (2 * (normalize "b a".data).length)
          ("a b cc".data.length + 1 - 2 * (normalize "b a".data).length),
        "a b cc".data, "b a".data) :=
  C6_amended_no_min_length 90 "a b cc".data "a b cc".data "b a".data
    (by decide) (by decide) (by decide)

/-- C7 counterexample: calling `enable_track_changes` twice appends two
`w:trackRevisions` elements — the flag is duplicated. -/
theorem C7_counterexample :
    List.count "w:trackRevisions".data
      (enable_track_changes (enable_track_changes [])) = 2 := by decide

/-- C7 amended: `enable_track_changes` unconditionally appends the tracking
flag (so calling it twice duplicates the flag), but
`output_commented_document` invokes it exactly once per run, so the output
settings contain exactly one more `w:trackRevisions` element than the
initial settings. -/
theorem C7_amended_called_once (th : Nat) (init ms cs rs ps : List Str) :
    (output_commented_document th init ms cs rs ps).settings =
      enable_track_changes init ∧
    List.count "w:trackRevisions".data
        (output_commented_document th init ms cs rs ps).settings =
      List.count "w:trackRevisions".data init + 1 := by
  refine ⟨rfl, ?_⟩
  show List.count "w:trackRevisions".data (enable_track_changes init) = _
  simp [enable_track_changes]

/-- C1: at the failing input (raw match string "a  b" whose normalized form
is "a b"), the item is applied to both paragraphs — the processed set stores
the normalized string but is checked against the raw one — and the raw
string is still listed in the unmatched report, so the item does not end in
exactly one terminal state. -/
theorem C1_double_apply_and_unmatched :
    (output_commented_document 90 [] ["a  b".data] ["c".data] ["r".data]
        ["a b".data, "a b".data]).paragraphs =
      [("a b".data, some [DocRun.deleted "a b".data ("c".data ++ confSuffix 100),
          DocRun.inserted "r".data]),
       ("a b".data, some [DocRun.deleted "a b".data ("c".data ++ confSuffix 100),
          DocRun.inserted "r".data])] ∧
    (output_commented_document 90 [] ["a  b".data] ["c".data] ["r".data]
        ["a b".data, "a b".data]).unmatched = ["a  b".data] := by decide

/-- C9 counterexample: two items share the raw match string "a  b" (whose
normalized form differs); the second is not skipped — it is re-applied to
the same paragraph (its comment "c2" survives in the output) — and the
shared string is still listed in the unmatched report. -/
theorem C9_counterexample :
    (output_commented_document 90 [] ["a  b".data, "a  b".data]
        ["c1".data, "c2".data] ["r1".data, "r2".data] ["a b".data]).paragraphs =
      [("a b".data, some [DocRun.deleted "a b".data ("c2".data ++ confSuffix 100),
        DocRun.inserted "r2".data])] ∧
    "a  b".data ∈ (output_commented_document 90 [] ["a  b".data, "a  b".data]
        ["c1".data, "c2".data] ["r1".data, "r2".data] ["a b".data]).unmatched := by
  decide

/-- C9 amended: the skip test compares raw match strings against the
processed set, so once a string is in the processed set every later item
carrying exactly that string is a no-op; a successful locate records the raw
string whenever the raw string equals its normalized form (exact pass) or
unconditionally (fuzzy pass); and no string in the processed set is ever
listed in the unmatched report.  Together: duplicates whose match string
equals its normalized form are skipped after the first application and
never reported unmatched. -/
theorem C9_amended_keyed_by_value (th : Nat) (norm text : Str)
    (rw : Option (List DocRun)) (processed : List Str) (m c r x : Str)
    (init ms cs rs ps : List Str)
    (h1 : m ∈ processed)
    (h2 : normalize m = m)
    (h3 : x ∈ (output_commented_document th init ms cs rs ps).unmatched) :
    stepItem th norm (text, rw, processed) (m, c, r) = (text, rw, processed) ∧
    (∀ conf loc t mm, locateMatch th text norm m = some (conf, loc, t, mm) →
      mm = m) ∧
    x ∉ (output_commented_document th init ms cs rs ps).processed := by
  refine ⟨?_, ?_, ?_⟩
  · simp only [stepItem]
    rw [if_pos h1]
  · intro conf loc t mm hl
    rcases locateMatch_key th text norm m conf loc t mm hl with hk | hk
    · rw [hk, h2]
    · exact hk
  · simp only [output_commented_document, runWithMatches] at h3 ⊢
    have hp := List.of_mem_filter h3
    simpa using hp

/-- Witness for the amended C9. -/
theorem C9_amended_keyed_by_value_witness :
    stepItem 90 "q".data ("q".data, none, ["q".data]) ("q".data, "c".data, "r".data) =
      ("q".data, none, ["q".data]) ∧
    (∀ conf loc t mm, locateMatch 90 "q".data "q".data "q".data =
      some (conf, loc, t, mm) → mm = "q".data) ∧
    "zz".data ∉ (output_commented_document 90 [] ["zz".data] ["c".data]
      ["r".data] []).processed :=
  C9_amended_keyed_by_value 90 "q".data "q".data none ["q".data] "q".data
    "c".data "r".data "zz".data [] ["zz".data] ["c".data] ["r".data] []
    (by decide) (by decide) (by decide)

/-- C10: `zip` truncates the flattened match/comment/revision lists to the
shortest, so the whole run equals the run on the common-length prefixes, and
every string in the unmatched report comes from that prefix of the match
strings — everything beyond it is silently ignored. -/
theorem C10_zip_truncation (th : Nat) (init : List Str)
    (secs : List SectionReview) (ps : List Str) :
    output_commented_document_sections th init secs ps =
      output_commented_document th init
        ((flattenSections secs).1.take (minLen3 secs))
        ((flattenSections secs).2.1.take (minLen3 secs))
        ((flattenSections secs).2.2.take (minLen3 secs)) ps ∧
    ∀ x ∈ (output_commented_document_sections th init secs ps).unmatched,
      x ∈ (flattenSections secs).1.take (minLen3 secs) := by
  constructor
  · simp only [output_commented_document_sections, output_commented_document,
      minLen3]
    rw [zip3_take (flattenSections secs).1 (flattenSections secs).2.1
      (flattenSections secs).2.2]
  · intro x hx
    simp only [output_commented_document_sections, output_commented_document,
      runWithMatches] at hx
    have h1 : x ∈ ((zip3 (flattenSections secs).1 (flattenSections secs).2.1
        (flattenSections secs).2.2).map (fun y => y.1)).dedup :=
      List.mem_of_mem_filter hx
    have h2 := List.mem_dedup.mp h1
    rw [zip3_map_fst] at h2
    simpa [minLen3] using h2

/-- Witness for C10: with one section holding two match strings but only one
comment and one revision, the second match string is dropped while the
first, unmatched anywhere, is reported from the retained prefix. -/
theorem C10_zip_truncation_witness :
    "zz".data ∈ (flattenSections [SectionReview.mk ["zz".data, "dropped".data]
      ["c1".data] ["r1".data]]).1.take
        (minLen3 [SectionReview.mk ["zz".data, "dropped".data]
          ["c1".data] ["r1".data]]) :=
  (C10_zip_truncation 90 [] [SectionReview.mk ["zz".data, "dropped".data]
    ["c1".data] ["r1".data]] []).2 "zz".data (by decide)

end AIPI
